import Mathlib

/-!
Verification development for the staff-lookup engine of `verify_lookup_bot.py`:
query classification, normalization, exact matching, fuzzy ranking and the
per-user sliding-window rate limiter.

Modelling conventions (shallow embedding of the Python source):
* Python strings are `List Char` (`Str`); `str.lower` is modelled on the ASCII
  range (the directory data and query handles the bot works with are ASCII),
  `str.strip()` strips the ASCII whitespace characters, and the regex character
  classes `[A-Za-z]`, `[0-9]`, `\w`, `\s` are the ASCII classes that appear
  literally in the source patterns.
* Python floats (`time.time()` timestamps, similarity ratios) are modelled as
  exact rationals `ℚ`; Python `int(x)` is truncation toward zero (`pyTrunc`).
* A Python `dict` row is an association list `List (Str × Str)` in insertion
  order; `row.get(k, d)` is `getS`.
* Iteration order over a Python `set` is implementation-defined (hash order),
  so functions that iterate over a set (`fuzzy_name_suggestions` over
  `set(names)`, the email-alias set in `load_dataset`) take the enumeration
  order as an explicit parameter, constrained to enumerate exactly the set's
  elements.
-/

namespace LookupBot

/-- Python strings, modelled as lists of characters. -/
abbrev Str := List Char

/-- Shorthand to write concrete `Str` literals. -/
def toStr (s : String) : Str := s.toList

/-! ### ASCII character classes used by the source's regexes and `str` methods -/

/-- ASCII uppercase letter (`A`-`Z`). -/
def isUpperB (c : Char) : Bool := decide (65 ≤ c.toNat) && decide (c.toNat ≤ 90)

/-- ASCII lowercase letter (`a`-`z`). -/
def isLowerB (c : Char) : Bool := decide (97 ≤ c.toNat) && decide (c.toNat ≤ 122)

/-- The regex class `[A-Za-z]`. -/
def isAlphaB (c : Char) : Bool := isUpperB c || isLowerB c

/-- The regex class `[0-9]`. -/
def isDigitB (c : Char) : Bool := decide (48 ≤ c.toNat) && decide (c.toNat ≤ 57)

/-- ASCII whitespace, the characters `str.strip()` removes: space, `\t`, `\n`,
`\v`, `\f`, `\r`. -/
def isWsB (c : Char) : Bool :=
  decide (c.toNat = 32) || decide (9 ≤ c.toNat) && decide (c.toNat ≤ 13)

/-- The explicit strip set of `parse_query`: backtick, `<`, `>`, space
(`t.strip("\x60<> ")` in the source). -/
def isStripSetB (c : Char) : Bool :=
  decide (c.toNat = 96) || decide (c.toNat = 60) || decide (c.toNat = 62) ||
    decide (c.toNat = 32)

/-- The regex class `[A-Za-z0-9._%+-]` (email local part). -/
def isLocalB (c : Char) : Bool :=
  isAlphaB c || isDigitB c || decide (c.toNat = 46) || decide (c.toNat = 95) ||
    decide (c.toNat = 37) || decide (c.toNat = 43) || decide (c.toNat = 45)

/-- The regex class `[A-Za-z0-9.-]` (email domain part). -/
def isDomB (c : Char) : Bool :=
  isAlphaB c || isDigitB c || decide (c.toNat = 46) || decide (c.toNat = 45)

/-- The regex class `[A-Za-z0-9_]` (`\w` over ASCII, used for handles). -/
def isWordB (c : Char) : Bool := isAlphaB c || isDigitB c || decide (c.toNat = 95)

/-- The character class of the name-like rule:
`[A-Za-zÀ-ɏ0-9\-\s.'\x60]`. -/
def isNameB (c : Char) : Bool :=
  isAlphaB c || (decide (192 ≤ c.toNat) && decide (c.toNat ≤ 591)) || isDigitB c ||
    decide (c.toNat = 45) || isWsB c || decide (c.toNat = 46) ||
    decide (c.toNat = 39) || decide (c.toNat = 96)

/-! ### `str.lower`, `str.strip`, `str.lstrip("@")` -/

/-- `Char.ofNat` round-trips on valid code points. -/
theorem char_toNat_ofNat (n : Nat) (h : n.isValidChar) : (Char.ofNat n).toNat = n := by
  simp only [Char.ofNat, dif_pos h, Char.ofNatAux, Char.toNat]
  rfl

/-- Python `str.lower` on one character (ASCII range). -/
def pyLower (c : Char) : Char :=
  if 65 ≤ c.toNat ∧ c.toNat ≤ 90 then Char.ofNat (c.toNat + 32) else c

theorem pyLower_toNat_of_upper (c : Char) (h : 65 ≤ c.toNat ∧ c.toNat ≤ 90) :
    (pyLower c).toNat = c.toNat + 32 := by
  have hv : (c.toNat + 32).isValidChar := Or.inl (by omega)
  simp [pyLower, h, char_toNat_ofNat _ hv]

/-- Lowercasing a character is idempotent. -/
theorem pyLower_idem (c : Char) : pyLower (pyLower c) = pyLower c := by
  by_cases h : 65 ≤ c.toNat ∧ c.toNat ≤ 90
  · have h2 := pyLower_toNat_of_upper c h
    rw [pyLower, if_neg (by omega)]
  · simp [pyLower, h]

/-- Python `str.lower` (ASCII model). -/
def toLowerStr (s : Str) : Str := s.map pyLower

/-- Strip characters satisfying `p` from the front and the back of a list:
the common core of `str.strip()` and `str.strip(chars)`. -/
def trimBy (p : Char → Bool) (s : Str) : Str :=
  ((s.dropWhile p).reverse.dropWhile p).reverse

/-- Python `str.strip()` (ASCII whitespace model). -/
def trimWs (s : Str) : Str := trimBy isWsB s

/-- Python `s.lstrip("@")`: drop every leading `@`. -/
def dropAts (s : Str) : Str := s.dropWhile (fun c => decide (c = '@'))

/-! ### Generic list lemmas used throughout -/

theorem takeWhile_append_of_all (p : Char → Bool) (xs ys : Str)
    (h : ∀ c ∈ xs, p c = true) :
    (xs ++ ys).takeWhile p = xs ++ ys.takeWhile p := by
  induction xs with
  | nil => simp
  | cons a l ih =>
    simp only [List.cons_append, List.takeWhile_cons]
    rw [h a (by simp)]
    simp [ih (fun c hc => h c (by simp [hc]))]

theorem dropWhile_append_of_all (p : Char → Bool) (xs ys : Str)
    (h : ∀ c ∈ xs, p c = true) :
    (xs ++ ys).dropWhile p = ys.dropWhile p := by
  induction xs with
  | nil => simp
  | cons a l ih =>
    simp only [List.cons_append, List.dropWhile_cons]
    rw [h a (by simp)]
    simp [ih (fun c hc => h c (by simp [hc]))]

theorem mem_takeWhile_sat (p : Char → Bool) (l : Str) :
    ∀ c ∈ l.takeWhile p, p c = true := by
  induction l with
  | nil => simp
  | cons a t ih =>
    intro c hc
    rw [List.takeWhile_cons] at hc
    by_cases ha : p a = true
    · rw [if_pos ha] at hc
      rcases List.mem_cons.1 hc with h | h
      · exact h ▸ ha
      · exact ih c h
    · simp [ha] at hc

theorem head_dropWhile_not (p : Char → Bool) (l : Str) :
    ∀ c, (l.dropWhile p).head? = some c → p c = false := by
  induction l with
  | nil => simp
  | cons a t ih =>
    intro c hc
    rw [List.dropWhile_cons] at hc
    by_cases ha : p a = true
    · rw [if_pos ha] at hc
      exact ih c hc
    · rw [if_neg ha] at hc
      simp only [List.head?_cons, Option.some.injEq] at hc
      subst hc
      simpa using ha

theorem dropWhile_eq_self_of_head (p : Char → Bool) (l : Str)
    (h : ∀ c, l.head? = some c → p c = false) : l.dropWhile p = l := by
  cases l with
  | nil => simp
  | cons a t =>
    rw [List.dropWhile_cons, if_neg]
    simp [h a rfl]

/-- `dropWhile` twice is `dropWhile` once. -/
theorem dropWhile_idem (p : Char → Bool) (l : Str) :
    (l.dropWhile p).dropWhile p = l.dropWhile p :=
  dropWhile_eq_self_of_head p _ (head_dropWhile_not p l)

theorem map_eq_self_of_fixed {f : Char → Char} {l : Str}
    (h : ∀ c ∈ l, f c = c) : l.map f = l := by
  induction l with
  | nil => rfl
  | cons a t ih => simp [h a (by simp), ih (fun c hc => h c (by simp [hc]))]

/-- `trimBy p l` is obtained from `l` by removing characters, so its members
are members of `l`. -/
theorem mem_of_mem_trimBy (p : Char → Bool) (l : Str) :
    ∀ c ∈ trimBy p l, c ∈ l := by
  intro c hc
  unfold trimBy at hc
  rw [List.mem_reverse] at hc
  have h1 := List.dropWhile_sublist (l := (l.dropWhile p).reverse) (p := p)
  have h2 := h1.mem hc
  rw [List.mem_reverse] at h2
  exact (List.dropWhile_sublist (l := l) (p := p)).mem h2

/-- The result of `trimBy p` starts with a character violating `p` (if any). -/
theorem head_trimBy_not (p : Char → Bool) (l : Str) :
    ∀ c, (trimBy p l).head? = some c → p c = false := by
  intro c hc
  unfold trimBy at hc
  -- trimBy p l is a prefix of `l.dropWhile p`, whose head violates p
  have hsplit := List.takeWhile_append_dropWhile (p := p) (l := (l.dropWhile p).reverse)
  have : l.dropWhile p =
      ((l.dropWhile p).reverse.dropWhile p).reverse ++
        ((l.dropWhile p).reverse.takeWhile p).reverse := by
    conv_lhs => rw [← List.reverse_reverse (l.dropWhile p), ← hsplit]
    rw [List.reverse_append]
  rcases hn : ((l.dropWhile p).reverse.dropWhile p).reverse with _ | ⟨a, t⟩
  · rw [hn] at hc; simp at hc
  · rw [hn] at hc this
    simp only [List.head?_cons, Option.some.injEq] at hc
    have ha : (l.dropWhile p).head? = some a := by rw [this]; simp
    rw [← hc]
    exact head_dropWhile_not p l a ha

/-- The result of `trimBy p` ends with a character violating `p` (if any). -/
theorem last_trimBy_not (p : Char → Bool) (l : Str) :
    ∀ c, (trimBy p l).reverse.head? = some c → p c = false := by
  intro c hc
  unfold trimBy at hc
  rw [List.reverse_reverse] at hc
  exact head_dropWhile_not p _ c hc

/-- `trimBy` is idempotent. -/
theorem trimBy_idem (p : Char → Bool) (l : Str) :
    trimBy p (trimBy p l) = trimBy p l := by
  have h1 : (trimBy p l).dropWhile p = trimBy p l :=
    dropWhile_eq_self_of_head p _ (head_trimBy_not p l)
  have h2 : (trimBy p l).reverse.dropWhile p = (trimBy p l).reverse :=
    dropWhile_eq_self_of_head p _ (last_trimBy_not p l)
  conv_lhs => rw [trimBy]
  rw [h1, h2, List.reverse_reverse]

/-! ### Record store and CSV loader (`load_dataset`) -/

/-- A directory record, with the normalized fields `load_dataset` computes and
caches on each row. -/
structure Record where
  email_norm : Str
  tg_norm : Str
  x_norm : Str
  full_name_norm : Str
  deriving DecidableEq, Repr

/-- `row.get(k, "")` on a dict row modelled as an association list in
insertion order (keys assumed distinct, as in a Python dict). -/
def getS (row : List (Str × Str)) (k : Str) : Str :=
  match row.find? (fun pr => pr.1 == k) with
  | some pr => pr.2
  | none => []

/-- Python `needle in hay` for strings: substring containment. -/
def containsStr (needle hay : Str) : Bool :=
  (List.range (hay.length + 1)).any (fun i => needle.isPrefixOf (hay.drop i))

/-- The six alias field names `load_dataset` tries besides `email`. -/
def sixAliases : List Str :=
  [toStr "e-mail", toStr "email_address", toStr "emailaddress", toStr "mail",
   toStr "work_email", toStr "e_mail"]

/-- The full contents of the Python set `email_aliases` (it also contains
`"email"` itself). -/
def allAliases : List Str := toStr "email" :: sixAliases

/-- `ord` enumerates exactly the elements of the alias set: iteration order
over a Python set is implementation-defined, so it is a parameter. -/
def validAliasEnum (ord : List Str) : Prop :=
  ord.Nodup ∧ (∀ a ∈ ord, a ∈ allAliases) ∧ (∀ a ∈ allAliases, a ∈ ord)

/-- The `email_val` resolution of `load_dataset`: prefer the field `email`;
else the first alias of the set with a truthy (non-empty) value, in set
iteration order `ord`; else the first field whose name contains `email` and
whose value is non-empty; else the empty string. -/
def resolve_email_val (row : List (Str × Str)) (ord : List Str) : Str :=
  if getS row (toStr "email") ≠ [] then getS row (toStr "email")
  else
    match ord.find? (fun a => !(getS row a == [])) with
    | some a => getS row a
    | none =>
      match row.find? (fun pr => containsStr (toStr "email") pr.1 && !(pr.2 == [])) with
      | some pr => pr.2
      | none => []

/-- `row["email_norm"] = (email_val or "").lower().strip()`. -/
def emailNormOf (row : List (Str × Str)) (ord : List Str) : Str :=
  trimWs (toLowerStr (resolve_email_val row ord))

/-- The handle normalization applied to `tg_username` and `x_username` at load
time: `value.lower().lstrip("@").strip()`. -/
def normHandle (s : Str) : Str := trimWs (dropAts (toLowerStr s))

/-- Building one `Record` from a cleaned CSV row, as `load_dataset` does. -/
def loadRecord (row : List (Str × Str)) (ord : List Str) : Record :=
  { email_norm := emailNormOf row ord
    tg_norm := normHandle (getS row (toStr "tg_username"))
    x_norm := normHandle (getS row (toStr "x_username"))
    full_name_norm := trimWs (getS row (toStr "full_name")) }

/-! ### Matcher (`find_record`) -/

/-- One of the three exact normalized fields, selected by name
(`r.get(field, "")` in the branch where `field` is one of the three). -/
def normField (r : Record) (field : String) : Str :=
  if field = "email_norm" then r.email_norm
  else if field = "tg_norm" then r.tg_norm
  else r.x_norm

/-- `find_record(field, value)` of the source: a linear scan of the snapshot,
first hit wins.  `value` is first `strip().lower()`-ed. -/
def find_record (data : List Record) (field : String) (value : Str) : Option Record :=
  let v := toLowerStr (trimWs value)
  if field = "email_norm" ∨ field = "tg_norm" ∨ field = "x_norm" then
    data.find? (fun r => toLowerStr (normField r field) == v)
  else if field = "raw" then
    data.find? (fun r => r.tg_norm == v || r.x_norm == v || r.email_norm == v)
  else if field = "name" then
    data.find? (fun r => toLowerStr r.full_name_norm == v)
  else if field = "email_domain" then
    data.find? (fun r => !(r.email_norm == []) && ('@' :: v).isSuffixOf r.email_norm)
  else none

/-! ### Rate limiter (`rate_allow`) -/

/-- The per-user timestamp store `_rate_store` (absent user = empty list,
matching `_rate_store.get(user_id, [])`). -/
def updateStore (store : Nat → List ℚ) (u : Nat) (l : List ℚ) : Nat → List ℚ :=
  fun v => if v = u then l else store v

/-- Python `int(q)` for a rational: truncation toward zero. -/
def pyTrunc (q : ℚ) : ℤ := if 0 ≤ q then ⌊q⌋ else -⌊-q⌋

/-- The timestamps of user `u` still inside the trailing window at `now`
(`[t for t in lst if t > window_start]`). -/
def remainingTs (store : Nat → List ℚ) (u : Nat) (w : ℤ) (now : ℚ) : List ℚ :=
  (store u).filter (fun t => decide (now - (w : ℚ) < t))

/-- `rate_allow(user_id)` of the source, with the configuration
(`RATE_LIMIT_COUNT`, `RATE_LIMIT_WINDOW`), the store and the current time as
explicit arguments.  Returns `(allowed, retry_after, new store)`. -/
def rate_allow (limit : Nat) (w : ℤ) (store : Nat → List ℚ) (u : Nat) (now : ℚ) :
    Bool × ℤ × (Nat → List ℚ) :=
  let lst := remainingTs store u w now
  if limit ≤ lst.length then
    let retry : ℤ :=
      match lst with
      | [] => w
      | t :: _ => pyTrunc (t + (w : ℚ) - now)
    (false, max 1 retry, updateStore store u lst)
  else
    (true, 0, updateStore store u (lst ++ [now]))

/-! ### Fuzzy ranker (`fuzzy_name_suggestions` with `difflib.SequenceMatcher`)

`SequenceMatcher(None, a, b).ratio()` is the Ratcliff/Obershelp gestalt
similarity `2·M/T`: `M` is the total size of the matching blocks found by
recursively taking the longest matching block (earliest in `a`, then in `b`,
among the longest), and `T = len(a) + len(b)`.  The strings involved here are
far below `difflib`'s autojunk threshold (200), so no junk handling applies. -/

/-- Length of the longest common prefix of two strings. -/
def lcpLen : Str → Str → Nat
  | a :: as, b :: bs => if a = b then lcpLen as bs + 1 else 0
  | _, _ => 0

/-- The longest matching block of `a` and `b` as `(i, j, k)`:
`a[i:i+k] = b[j:j+k]`, `k` maximal, ties resolved to the smallest `i`, then
the smallest `j` (as `difflib.find_longest_match` does without junk). -/
def bestMatch (a b : Str) : Nat × Nat × Nat :=
  (List.range a.length).foldl
    (fun best i =>
      (List.range b.length).foldl
        (fun best j =>
          let k := lcpLen (a.drop i) (b.drop j)
          if best.2.2 < k then (i, j, k) else best)
        best)
    (0, 0, 0)

/-- Total size of all matching blocks, by recursive longest-block splitting.
Structural recursion on a fuel argument (each recursive call strictly
decreases `a.length + b.length`, so `a.length + b.length` fuel suffices). -/
def matchTotalF : Nat → Str → Str → Nat
  | 0, _, _ => 0
  | fuel + 1, a, b =>
    let bm := bestMatch a b
    if bm.2.2 = 0 then 0
    else
      matchTotalF fuel (a.take bm.1) (b.take bm.2.1) + bm.2.2 +
        matchTotalF fuel (a.drop (bm.1 + bm.2.2)) (b.drop (bm.2.1 + bm.2.2))

/-- `M`, the total matched size of `SequenceMatcher(None, a, b)`. -/
def matchTotal (a b : Str) : Nat := matchTotalF (a.length + b.length) a b

/-- `SequenceMatcher(None, a, b).ratio()` as an exact rational
(`2.0 * M / T`, and `1.0` when both strings are empty). -/
def ratioQ (a b : Str) : ℚ :=
  if a.length + b.length = 0 then 1
  else (2 * (matchTotal a b : ℚ)) / ((a.length : ℚ) + (b.length : ℚ))

/-- The candidate names: `[r.get("full_name_norm","") for r in DATA if r.get("full_name_norm")]`. -/
def namesOf (data : List Record) : List Str :=
  data.filterMap (fun r => if r.full_name_norm = [] then none else some r.full_name_norm)

/-- `dedup` enumerates exactly the distinct names, i.e. the elements of the
Python set `set(names)`; its order is implementation-defined, so it is a
parameter of the model. -/
def validDedup (dedup names : List Str) : Prop :=
  dedup.Nodup ∧ (∀ n ∈ dedup, n ∈ names) ∧ (∀ n ∈ names, n ∈ dedup)

/-- The scored list built by the loop of `fuzzy_name_suggestions`: every
distinct name whose ratio to the query (both lowercased) reaches the cutoff,
in set iteration order. -/
def scoredList (q : Str) (cutoff : ℚ) (dedup : List Str) : List (Str × ℚ) :=
  dedup.filterMap (fun n =>
    let r := ratioQ (toLowerStr q) (toLowerStr n)
    if cutoff ≤ r then some (n, r) else none)

/-- The sort order of `scored.sort(key=lambda x: x[1], reverse=True)`:
descending ratio.  A stable sort with this relation (insertion before the
first strictly-smaller key) reproduces Python's stable descending sort. -/
def ratioGE (x y : Str × ℚ) : Prop := y.2 ≤ x.2

instance : DecidableRel ratioGE := fun x y => inferInstanceAs (Decidable (y.2 ≤ x.2))

instance : IsTotal (Str × ℚ) ratioGE := ⟨fun a b => le_total b.2 a.2⟩

instance : IsTrans (Str × ℚ) ratioGE := ⟨fun _ _ _ h1 h2 => le_trans h2 h1⟩

/-- `fuzzy_name_suggestions(name_value)` of the source, with the cutoff, the
max-suggestion count and the set enumeration order as explicit arguments. -/
def fuzzy_name_suggestions (q : Str) (cutoff : ℚ) (maxSuggest : Nat)
    (dedup : List Str) : List (Str × ℚ) :=
  (List.insertionSort ratioGE (scoredList q cutoff dedup)).take maxSuggest

/-! ### Query classifier (`parse_query`)

Each regex of the source is rendered operationally with `re.search`'s
leftmost-match discipline: try a match at every start position from the left;
at one position, alternatives and optional pieces are tried in the regex's
backtracking order.  Greedy character-class runs are `takeWhile`s; the only
genuine backtracking — the split of the greedy domain run at the last usable
dot in the email rule — is an explicit downward scan. -/

/-- Match of `[A-Za-z0-9._%+-]+@[A-Za-z0-9.-]+\.[A-Za-z]{2,}` anchored at the
start of `l` (trailing input is allowed), returning the matched substring.
The greedy domain run is split at the largest `k` such that position `k` of
the run holds a dot followed by at least two letters. -/
def findSplit (dom : Str) : Option Nat :=
  (List.range dom.length).reverse.find? (fun k =>
    decide (1 ≤ k) && decide (dom.getD k ' ' = '.') &&
      decide (2 ≤ ((dom.drop (k + 1)).takeWhile isAlphaB).length))

def matchCore (l : Str) : Option Str :=
  let loc := l.takeWhile isLocalB
  let r := l.dropWhile isLocalB
  if loc = [] then none
  else if r.head? = some '@' then
    let dom := r.tail.takeWhile isDomB
    match findSplit dom with
    | some k =>
      some (loc ++ '@' :: (dom.take k ++ '.' :: (dom.drop (k + 1)).takeWhile isAlphaB))
    | none => none
  else none

/-- One attempt of the email regex at a fixed position: the optional
`(?:mailto:)?` prefix is tried greedily first (case-insensitively), falling
back to the bare pattern. -/
def matchAt (l : Str) : Option Str :=
  if (l.take 7).map pyLower == toStr "mailto:" then
    match matchCore (l.drop 7) with
    | some g => some g
    | none => matchCore l
  else matchCore l

/-- `re.search` of the email pattern: first position (from the left) where a
match starts; the returned value is capture group 1 (without `mailto:`). -/
def emailSearch : Str → Option Str
  | [] => none
  | c :: t =>
    match matchAt (c :: t) with
    | some g => some g
    | none => emailSearch t

/-- The handle tail `/@?([A-Za-z0-9_]{lo,hi})(?:[/?#]|$)` after a matched
host: a `/`, an optional `@` (tried consumed first), then a word run whose
length lies in `[lo, hi]` and which is followed by `/`, `?`, `#` or the end. -/
def tailHandle (s : Str) (lo hi : Nat) : Option Str :=
  match s with
  | '/' :: r =>
    let tryRun : Str → Option Str := fun r' =>
      let run := r'.takeWhile isWordB
      if decide (lo ≤ run.length) && decide (run.length ≤ hi) &&
          (match r'.drop run.length with
           | [] => true
           | c :: _ => c == '/' || c == '?' || c == '#') then
        some run
      else none
    match r with
    | '@' :: r2 =>
      match tryRun r2 with
      | some g => some g
      | none => tryRun r
    | _ => tryRun r
  | _ => none

/-- Case-insensitive literal prefix test (`lit` given lowercased). -/
def ciStartsWith (l lit : Str) : Bool := (l.take lit.length).map pyLower == lit

/-- The scheme/www/host prefixes `(?:https?://)?(?:www\.)?(?:h₁|h₂)` in the
regex engine's backtracking order. -/
def prefCombos (hosts : List Str) : List Str :=
  [toStr "https://", toStr "http://", []].flatMap (fun a =>
    [toStr "www.", []].flatMap (fun w =>
      hosts.map (fun h => a ++ w ++ h)))

/-- One attempt of a link regex (X/Twitter or Telegram) at a fixed position. -/
def linkMatchAt (s : Str) (hosts : List Str) (lo hi : Nat) : Option Str :=
  (prefCombos hosts).findSome? (fun pre =>
    if ciStartsWith s pre then tailHandle (s.drop pre.length) lo hi else none)

/-- `re.search` for a link pattern: leftmost start position that matches. -/
def linkSearch (l : Str) (hosts : List Str) (lo hi : Nat) : Option Str :=
  match l with
  | [] => none
  | _ :: t =>
    match linkMatchAt l hosts lo hi with
    | some g => some g
    | none => linkSearch t hosts lo hi

/-- `re.match(r"^@?([A-Za-z0-9_]{1,64})$", t)`: the whole input is an
optional `@` followed by 1–64 word characters. -/
def plainHandle (t : Str) : Option Str :=
  match t with
  | '@' :: r =>
    if r.all isWordB && decide (1 ≤ r.length) && decide (r.length ≤ 64) then some r
    else none
  | _ =>
    if t.all isWordB && decide (1 ≤ t.length) && decide (t.length ≤ 64) then some t
    else none

/-- The name-like rule: every character in the name class and length 2–100. -/
def nameLike (t : Str) : Bool :=
  t.all isNameB && decide (2 ≤ t.length) && decide (t.length ≤ 100)

/-- `([A-Za-z0-9.-]+\.[A-Za-z]{2,})$` matching all of `r` (used by the
domain fallback, which is anchored at the end of the input). -/
def domAtEnd (r : Str) : Bool :=
  (List.range r.length).any (fun k =>
    decide (1 ≤ k) && (r.take k).all isDomB && decide (r.getD k ' ' = '.') &&
      (r.drop (k + 1)).all isAlphaB && decide (2 ≤ r.length - (k + 1)))

/-- One attempt of `@?([A-Za-z0-9.-]+\.[A-Za-z]{2,})$` at a fixed position. -/
def domMatchAt (s : Str) : Option Str :=
  match s with
  | '@' :: r => if domAtEnd r then some r else none
  | _ => if domAtEnd s then some s else none

/-- `re.search` for the domain fallback. -/
def domSearch (l : Str) : Option Str :=
  match l with
  | [] => none
  | _ :: t =>
    match domMatchAt l with
    | some g => some g
    | none => domSearch t

/-- The input cleaning of `parse_query`: `text.strip().strip("\x60<> ")`. -/
def cleanInput (t : Str) : Str := trimBy isStripSetB (trimWs t)

/-- The rules of `parse_query` after the email rule, in priority order. -/
def parse_query_rest (tc : Str) : Option String × Option Str :=
  match linkSearch tc [toStr "x.com", toStr "twitter.com"] 1 15 with
  | some g => (some "x_norm", some (toLowerStr g))
  | none =>
    match linkSearch tc [toStr "t.me", toStr "telegram.me"] 3 64 with
    | some g => (some "tg_norm", some (toLowerStr g))
    | none =>
      match plainHandle tc with
      | some g => (some "raw", some (toLowerStr g))
      | none =>
        if nameLike tc then (some "name", some (trimWs tc))
        else
          match domSearch tc with
          | some g => (some "email_domain", some (toLowerStr g))
          | none => (none, none)

/-- `parse_query(text)` of the source. -/
def parse_query (t : Str) : Option String × Option Str :=
  let tc := cleanInput t
  match emailSearch tc with
  | some g => (some "email_norm", some (toLowerStr g))
  | none => parse_query_rest tc

/-! ## Rate limiter properties (claims C1, C7, C10) -/

theorem updateStore_same (store : Nat → List ℚ) (u : Nat) (l : List ℚ) :
    updateStore store u l u = l := by simp [updateStore]

theorem updateStore_other (store : Nat → List ℚ) (u v : Nat) (l : List ℚ)
    (h : v ≠ u) : updateStore store u l v = store v := by simp [updateStore, h]

theorem updateStore_updateStore (store : Nat → List ℚ) (u : Nat) (a b : List ℚ) :
    updateStore (updateStore store u a) u b = updateStore store u b := by
  funext v
  by_cases h : v = u <;> simp [updateStore, h]

/-- Pruning at a later time factors through pruning at an earlier time. -/
theorem remainingTs_updateStore_remaining (store : Nat → List ℚ) (u : Nat)
    (w : ℤ) (now now' : ℚ) (h : now ≤ now') :
    remainingTs (updateStore store u (remainingTs store u w now)) u w now' =
      remainingTs store u w now' := by
  unfold remainingTs
  rw [updateStore_same, List.filter_filter]
  refine List.filter_congr ?_
  intro t _
  by_cases h1 : now' - (w : ℚ) < t
  · have h2 : now - (w : ℚ) < t := by linarith
    simp [h1, h2]
  · simp [h1]

/-- Claim C1 (amended): on each call the timestamps outside the trailing
window are dropped; if at least `limit` remain the call is rejected with
retry delay `max 1 (int(oldest + window - now))` — `int` is Python's
truncation toward zero, not the ceiling — where `oldest` is the minimum
remaining timestamp (the head of the stored list, which the limiter keeps
sorted); otherwise `now` is appended and the call is accepted with delay 0. -/
theorem rate_allow_sliding_window (limit : Nat) (w : ℤ) (store : Nat → List ℚ)
    (u : Nat) (now : ℚ) (hlim : 0 < limit)
    (hsort : (store u).Sorted (· ≤ ·)) :
    (limit ≤ (remainingTs store u w now).length →
      ∃ oldest, oldest ∈ remainingTs store u w now ∧
        (∀ t ∈ remainingTs store u w now, oldest ≤ t) ∧
        rate_allow limit w store u now =
          (false, max 1 (pyTrunc (oldest + (w : ℚ) - now)),
            updateStore store u (remainingTs store u w now))) ∧
    ((remainingTs store u w now).length < limit →
      rate_allow limit w store u now =
        (true, 0, updateStore store u (remainingTs store u w now ++ [now]))) := by
  constructor
  · intro hge
    rcases hl : remainingTs store u w now with _ | ⟨t, rest⟩
    · rw [hl] at hge
      simp at hge
      omega
    · refine ⟨t, List.mem_cons_self _ _, ?_, ?_⟩
      · intro t' ht'
        have hp : (remainingTs store u w now).Pairwise (· ≤ ·) :=
          List.Pairwise.filter _ hsort
        rw [hl] at hp
        rcases List.mem_cons.1 ht' with h | h
        · rw [h]
        · exact (List.pairwise_cons.1 hp).1 t' h
      · rw [hl] at hge
        simp only [rate_allow, hl]
        rw [if_pos hge]
  · intro hlt
    simp only [rate_allow]
    rw [if_neg (by omega)]

/-- Non-vacuity witness for `rate_allow_sliding_window` at a concrete store
(user 5 has two in-window timestamps, limit 2). -/
def demoStore : Nat → List ℚ := updateStore (fun _ => []) 5 [10, 20]

theorem rate_allow_sliding_window_witness :
    (0 < 2 ∧ (demoStore 5).Sorted (· ≤ ·)) ∧
    ((2 ≤ (remainingTs demoStore 5 60 30).length →
      ∃ oldest, oldest ∈ remainingTs demoStore 5 60 30 ∧
        (∀ t ∈ remainingTs demoStore 5 60 30, oldest ≤ t) ∧
        rate_allow 2 60 demoStore 5 30 =
          (false, max 1 (pyTrunc (oldest + ((60 : ℤ) : ℚ) - 30)),
            updateStore demoStore 5 (remainingTs demoStore 5 60 30))) ∧
    ((remainingTs demoStore 5 60 30).length < 2 →
      rate_allow 2 60 demoStore 5 30 =
        (true, 0, updateStore demoStore 5 (remainingTs demoStore 5 60 30 ++ [30])))) := by
  have hs : (demoStore 5).Sorted (· ≤ ·) := by
    simp only [demoStore, updateStore_same]
    refine List.sorted_cons.2 ⟨?_, List.sorted_singleton _⟩
    intro b hb
    simp only [List.mem_singleton] at hb
    rw [hb]
    norm_num
  exact ⟨⟨by norm_num, hs⟩, rate_allow_sliding_window 2 60 demoStore 5 30 (by norm_num) hs⟩

/-- Store for the C1 counterexample: user 0 recorded one request at `t = 3/2`. -/
def cexStore : Nat → List ℚ := updateStore (fun _ => []) 0 [3/2]

/-- Counterexample to claim C1 as stated: with limit 1 and window 60, at
`now = 60` the remaining window of user 0 is `[3/2]`, so the claimed retry
delay would be `max 1 ⌈3/2 + 60 - 60⌉ = 2`, but the code reports
`max 1 (int(3/2)) = 1`: the source truncates (`int(...)`), it does not take
the ceiling. -/
theorem rate_allow_trunc_ne_ceil :
    (rate_allow 1 60 cexStore 0 60).1 = false ∧
    remainingTs cexStore 0 60 60 = [3/2] ∧
    (rate_allow 1 60 cexStore 0 60).2.1 = 1 ∧
    max 1 ⌈(3 : ℚ)/2 + ((60 : ℤ) : ℚ) - 60⌉ = 2 ∧ (1 : ℤ) ≠ 2 := by
  have h1 : cexStore 0 = [3/2] := by simp [cexStore, updateStore]
  have h2 : remainingTs cexStore 0 60 60 = [3/2] := by
    simp only [remainingTs, h1, List.filter]
    norm_num
  have h3 : ((3 : ℚ)/2 + ((60 : ℤ) : ℚ) - 60) = 3/2 := by push_cast; ring
  have hfl : (⌊(3 : ℚ)/2⌋ : ℤ) = 1 := by
    rw [Int.floor_eq_iff]
    norm_num
  have hcl : (⌈(3 : ℚ)/2⌉ : ℤ) = 2 := by
    rw [Int.ceil_eq_iff]
    norm_num
  have htr : pyTrunc ((3 : ℚ)/2 + ((60 : ℤ) : ℚ) - 60) = 1 := by
    rw [h3, pyTrunc, if_pos (by norm_num), hfl]
  have hra : rate_allow 1 60 cexStore 0 60 =
      (false, max 1 (pyTrunc ((3 : ℚ)/2 + ((60 : ℤ) : ℚ) - 60)),
        updateStore cexStore 0 [3/2]) := by
    simp only [rate_allow, h2]
    rw [if_pos (by simp)]
  refine ⟨by rw [hra], h2, ?_, ?_, by norm_num⟩
  · rw [hra]
    simp only [htr]
    norm_num
  · rw [h3, hcl]
    norm_num

/-- Claim C7: with limit 2 and window 60, three calls of the same user within
one second are accepted, accepted, then rejected with a positive retry
delay. -/
theorem rate_allow_three_calls (store : Nat → List ℚ) (u : Nat) (t1 t2 t3 : ℚ)
    (h0 : store u = []) (h12 : t1 ≤ t2) (h23 : t2 ≤ t3) (h31 : t3 ≤ t1 + 1) :
    (rate_allow 2 60 store u t1).1 = true ∧
    (rate_allow 2 60 (rate_allow 2 60 store u t1).2.2 u t2).1 = true ∧
    (rate_allow 2 60 (rate_allow 2 60 (rate_allow 2 60 store u t1).2.2 u t2).2.2 u t3).1
      = false ∧
    0 < (rate_allow 2 60 (rate_allow 2 60 (rate_allow 2 60 store u t1).2.2 u t2).2.2 u t3).2.1 := by
  have hr1 : remainingTs store u 60 t1 = [] := by
    simp [remainingTs, h0]
  have hc1 : rate_allow 2 60 store u t1 =
      (true, 0, updateStore store u [t1]) := by
    simp only [rate_allow, hr1]
    rw [if_neg (by simp)]
    simp
  have hs1 : (rate_allow 2 60 store u t1).2.2 u = [t1] := by
    rw [hc1]
    exact updateStore_same _ _ _
  have hd21 : decide (t2 - (60 : ℚ) < t1) = true :=
    decide_eq_true (by linarith)
  have hr2 : remainingTs (rate_allow 2 60 store u t1).2.2 u 60 t2 = [t1] := by
    simp only [remainingTs, hs1]
    simp [List.filter, hd21]
  have hc2 : rate_allow 2 60 (rate_allow 2 60 store u t1).2.2 u t2 =
      (true, 0, updateStore (rate_allow 2 60 store u t1).2.2 u [t1, t2]) := by
    generalize hX : (rate_allow 2 60 store u t1).2.2 = X at hr2 ⊢
    simp only [rate_allow, hr2]
    rw [if_neg (by simp)]
    simp
  have hs2 : (rate_allow 2 60 (rate_allow 2 60 store u t1).2.2 u t2).2.2 u = [t1, t2] := by
    rw [hc2]
    exact updateStore_same _ _ _
  have hd31 : decide (t3 - (60 : ℚ) < t1) = true :=
    decide_eq_true (by linarith)
  have hd32 : decide (t3 - (60 : ℚ) < t2) = true :=
    decide_eq_true (by linarith)
  have hr3 : remainingTs (rate_allow 2 60 (rate_allow 2 60 store u t1).2.2 u t2).2.2 u 60 t3
      = [t1, t2] := by
    simp only [remainingTs, hs2]
    simp [List.filter, hd31, hd32]
  have hc3 : rate_allow 2 60 (rate_allow 2 60 (rate_allow 2 60 store u t1).2.2 u t2).2.2 u t3
      = (false, max 1 (pyTrunc (t1 + ((60 : ℤ) : ℚ) - t3)),
          updateStore (rate_allow 2 60 (rate_allow 2 60 store u t1).2.2 u t2).2.2 u [t1, t2]) := by
    generalize hX : (rate_allow 2 60 (rate_allow 2 60 store u t1).2.2 u t2).2.2 = X at hr3 ⊢
    simp only [rate_allow, hr3]
    rw [if_pos (by simp)]
  refine ⟨by rw [hc1], by rw [hc2], by rw [hc3], ?_⟩
  rw [hc3]
  exact lt_of_lt_of_le zero_lt_one (le_max_left _ _)

theorem rate_allow_three_calls_witness :
    ((fun _ : Nat => ([] : List ℚ)) 7 = [] ∧ (0 : ℚ) ≤ 1/2 ∧ (1/2 : ℚ) ≤ 1 ∧ (1 : ℚ) ≤ 0 + 1) ∧
    ((rate_allow 2 60 (fun _ => []) 7 0).1 = true ∧
     (rate_allow 2 60 (rate_allow 2 60 (fun _ => []) 7 0).2.2 7 (1/2)).1 = true ∧
     (rate_allow 2 60 (rate_allow 2 60 (rate_allow 2 60 (fun _ => []) 7 0).2.2 7 (1/2)).2.2 7 1).1
       = false ∧
     0 < (rate_allow 2 60 (rate_allow 2 60 (rate_allow 2 60 (fun _ => []) 7 0).2.2 7 (1/2)).2.2 7 1).2.1) :=
  ⟨⟨rfl, by norm_num, by norm_num, by norm_num⟩,
    rate_allow_three_calls (fun _ => []) 7 0 (1/2) 1 rfl (by norm_num) (by norm_num) (by norm_num)⟩

/-- Claim C10: a rejected call only removes expired timestamps from the
calling user's window (never appends), leaves every other user's window
untouched, and does not change the outcome of any later call of that user. -/
theorem rate_allow_reject_frame (limit : Nat) (w : ℤ) (store : Nat → List ℚ)
    (u : Nat) (now : ℚ) :
    ((rate_allow limit w store u now).1 = false →
      (rate_allow limit w store u now).2.2 u = remainingTs store u w now ∧
      ((rate_allow limit w store u now).2.2 u).Sublist (store u)) ∧
    (∀ v, v ≠ u → (rate_allow limit w store u now).2.2 v = store v) ∧
    ((rate_allow limit w store u now).1 = false → ∀ now', now ≤ now' →
      rate_allow limit w (rate_allow limit w store u now).2.2 u now' =
        rate_allow limit w store u now') := by
  by_cases hc : limit ≤ (remainingTs store u w now).length
  · have hra : rate_allow limit w store u now =
        (false,
          max 1 (match remainingTs store u w now with
            | [] => w
            | t :: _ => pyTrunc (t + (w : ℚ) - now)),
          updateStore store u (remainingTs store u w now)) := by
      simp only [rate_allow]
      rw [if_pos hc]
    have hst : (rate_allow limit w store u now).2.2 =
        updateStore store u (remainingTs store u w now) := by
      rw [hra]
    refine ⟨?_, ?_, ?_⟩
    · intro _
      rw [hst, updateStore_same]
      exact ⟨rfl, List.filter_sublist _⟩
    · intro v hv
      rw [hst]
      exact updateStore_other _ _ _ _ hv
    · intro _ now' hnow
      rw [hst]
      have hrem := remainingTs_updateStore_remaining store u w now now' hnow
      have hupd : ∀ X : List ℚ,
          updateStore (updateStore store u (remainingTs store u w now)) u X =
            updateStore store u X := fun X => updateStore_updateStore _ _ _ _
      simp only [rate_allow, hrem, hupd]
  · have hra : rate_allow limit w store u now =
        (true, 0, updateStore store u (remainingTs store u w now ++ [now])) := by
      simp only [rate_allow]
      rw [if_neg hc]
    have hflag : (rate_allow limit w store u now).1 = true := by rw [hra]
    refine ⟨?_, ?_, ?_⟩
    · intro hfalse
      rw [hflag] at hfalse
      exact absurd hfalse (by simp)
    · intro v hv
      have hst : (rate_allow limit w store u now).2.2 =
          updateStore store u (remainingTs store u w now ++ [now]) := by
        rw [hra]
      rw [hst]
      exact updateStore_other _ _ _ _ hv
    · intro hfalse
      rw [hflag] at hfalse
      exact absurd hfalse (by simp)

theorem rate_allow_reject_frame_witness :
    ((rate_allow 1 60 cexStore 0 60).1 = false ∧ (60 : ℚ) ≤ 61) ∧
    ((rate_allow 1 60 cexStore 0 60).2.2 0 = remainingTs cexStore 0 60 60 ∧
      ((rate_allow 1 60 cexStore 0 60).2.2 0).Sublist (cexStore 0)) ∧
    ((rate_allow 1 60 cexStore 0 60).2.2 3 = cexStore 3) ∧
    (rate_allow 1 60 (rate_allow 1 60 cexStore 0 60).2.2 0 61 =
      rate_allow 1 60 cexStore 0 61) := by
  have h1 : cexStore 0 = [3/2] := by simp [cexStore, updateStore]
  have h2 : remainingTs cexStore 0 60 60 = [3/2] := by
    simp only [remainingTs, h1, List.filter]
    norm_num
  have hfalse : (rate_allow 1 60 cexStore 0 60).1 = false := by
    simp only [rate_allow, h2]
    rw [if_pos (by simp)]
  have hmain := rate_allow_reject_frame 1 60 cexStore 0 60
  exact ⟨⟨hfalse, by norm_num⟩, hmain.1 hfalse, hmain.2.1 3 (by norm_num) ,
    hmain.2.2 hfalse 61 (by norm_num)⟩

/-! ## Matcher properties (claims C3, C6, C9) -/

/-- First-match decomposition of `List.find?`. -/
theorem find?_first {α : Type} (p : α → Bool) (l : List α) (a : α)
    (h : l.find? p = some a) :
    ∃ pre post, l = pre ++ a :: post ∧ (∀ b ∈ pre, p b = false) ∧ p a = true := by
  induction l with
  | nil => simp at h
  | cons x t ih =>
    by_cases hx : p x = true
    · rw [List.find?_cons_of_pos _ hx] at h
      obtain rfl : x = a := by injection h
      exact ⟨[], t, rfl, by simp, hx⟩
    · rw [List.find?_cons_of_neg _ hx] at h
      obtain ⟨pre, post, heq, hpre, hpa⟩ := ih h
      refine ⟨x :: pre, post, by rw [heq, List.cons_append], ?_, hpa⟩
      intro b hb
      rcases List.mem_cons.1 hb with hb | hb
      · rw [hb]
        simpa using hx
      · exact hpre b hb

/-- The `"raw"` branch of `find_record` is the scan
`data.find? (tg_norm = v or x_norm = v or email_norm = v)`. -/
theorem find_record_raw_eq (data : List Record) (value : Str) :
    find_record data "raw" value =
      data.find? (fun r =>
        r.tg_norm == toLowerStr (trimWs value) || r.x_norm == toLowerStr (trimWs value) ||
          r.email_norm == toLowerStr (trimWs value)) := by
  simp only [find_record]
  simp

/-- Claim C3 (amended): for a `RawHandle` query the scan tests
`telegram_norm`, `x_norm` and `email_norm` of each record in turn, but the
record returned is the **first record in snapshot order** matching on any of
the three fields; the field order `tg, x, email` never decides between two
different records. -/
theorem find_record_raw_first_record (data : List Record) (value : Str) :
    (∀ r, find_record data "raw" value = some r →
      ∃ pre post, data = pre ++ r :: post ∧
        (r.tg_norm = toLowerStr (trimWs value) ∨ r.x_norm = toLowerStr (trimWs value) ∨
          r.email_norm = toLowerStr (trimWs value)) ∧
        ∀ r' ∈ pre,
          ¬(r'.tg_norm = toLowerStr (trimWs value) ∨ r'.x_norm = toLowerStr (trimWs value) ∨
            r'.email_norm = toLowerStr (trimWs value))) ∧
    (find_record data "raw" value = none ↔
      ∀ r ∈ data,
        ¬(r.tg_norm = toLowerStr (trimWs value) ∨ r.x_norm = toLowerStr (trimWs value) ∨
          r.email_norm = toLowerStr (trimWs value))) := by
  rw [find_record_raw_eq]
  constructor
  · intro r hr
    obtain ⟨pre, post, heq, hpre, hpa⟩ := find?_first _ _ _ hr
    refine ⟨pre, post, heq, ?_, ?_⟩
    · simp only [Bool.or_eq_true, beq_iff_eq] at hpa
      tauto
    · intro r' hr'
      have hfalse := hpre r' hr'
      intro hcon
      have htrue : (r'.tg_norm == toLowerStr (trimWs value) ||
          r'.x_norm == toLowerStr (trimWs value) ||
          r'.email_norm == toLowerStr (trimWs value)) = true := by
        simp only [Bool.or_eq_true, beq_iff_eq]
        tauto
      rw [hfalse] at htrue
      simp at htrue
  · rw [List.find?_eq_none]
    constructor
    · intro h r hr
      have := h r hr
      simp only [Bool.or_eq_true, beq_iff_eq] at this
      tauto
    · intro h r hr
      have := h r hr
      simp only [Bool.or_eq_true, beq_iff_eq]
      tauto

/-- A record matching the raw value `jdoe` only on `email_norm`. -/
def recEmailJdoe : Record :=
  { email_norm := toStr "jdoe", tg_norm := [], x_norm := [], full_name_norm := [] }

/-- A record matching the raw value `jdoe` only on `tg_norm`. -/
def recTgJdoe : Record :=
  { email_norm := [], tg_norm := toStr "jdoe", x_norm := [], full_name_norm := [] }

/-- Counterexample to claim C3 as stated: in a snapshot whose first record
matches `jdoe` only on `email_norm` and whose second record matches only on
`telegram_norm`, the scan returns the **first** record (the email match) —
field precedence `telegram, x, email` would have required the second. -/
theorem find_record_raw_precedence_cex :
    find_record [recEmailJdoe, recTgJdoe] "raw" (toStr "jdoe") = some recEmailJdoe ∧
    recEmailJdoe ≠ recTgJdoe ∧
    recTgJdoe.tg_norm = toLowerStr (trimWs (toStr "jdoe")) ∧
    recEmailJdoe.tg_norm ≠ toLowerStr (trimWs (toStr "jdoe")) ∧
    recEmailJdoe.email_norm = toLowerStr (trimWs (toStr "jdoe")) := by
  refine ⟨by decide, by decide, by decide, by decide, by decide⟩

theorem find_record_raw_first_record_witness :
    find_record [recTgJdoe] "raw" (toStr "jdoe") = some recTgJdoe ∧
    (∃ pre post, [recTgJdoe] = pre ++ recTgJdoe :: post ∧
      (recTgJdoe.tg_norm = toLowerStr (trimWs (toStr "jdoe")) ∨
        recTgJdoe.x_norm = toLowerStr (trimWs (toStr "jdoe")) ∨
        recTgJdoe.email_norm = toLowerStr (trimWs (toStr "jdoe"))) ∧
      ∀ r' ∈ pre,
        ¬(r'.tg_norm = toLowerStr (trimWs (toStr "jdoe")) ∨
          r'.x_norm = toLowerStr (trimWs (toStr "jdoe")) ∨
          r'.email_norm = toLowerStr (trimWs (toStr "jdoe")))) := by
  have h : find_record [recTgJdoe] "raw" (toStr "jdoe") = some recTgJdoe := by decide
  exact ⟨h, (find_record_raw_first_record [recTgJdoe] (toStr "jdoe")).1 recTgJdoe h⟩

/-- The exact branch of `find_record` for the three normalized fields. -/
theorem find_record_exact_eq (data : List Record) (field : String) (value : Str)
    (hf : field = "email_norm" ∨ field = "tg_norm" ∨ field = "x_norm") :
    find_record data field value =
      data.find? (fun r => toLowerStr (normField r field) == toLowerStr (trimWs value)) := by
  simp only [find_record]
  rw [if_pos hf]

/-- The row of the spec's `Jane@Example.com` example and its loaded record. -/
def janeRow : List (Str × Str) := [(toStr "email", toStr "Jane@Example.com")]

def janeRecord : Record := loadRecord janeRow allAliases

/-- Claim C6: for `Email`, `Telegram` and `X` queries (whose values, coming
from the classifier, carry no surrounding whitespace) the matcher returns the
first record in snapshot order whose normalized field is case-insensitively
equal to the value, `none` when there is none; in particular the snapshot
containing the record loaded from `email = "Jane@Example.com"` matched with
the email value `jane@example.com` returns that record. -/
theorem find_record_exact_ci (data : List Record) (field : String) (value : Str)
    (hf : field = "email_norm" ∨ field = "tg_norm" ∨ field = "x_norm")
    (hv : trimWs value = value) :
    (∀ r, find_record data field value = some r →
      toLowerStr (normField r field) = toLowerStr value ∧
      ∃ pre post, data = pre ++ r :: post ∧
        ∀ r' ∈ pre, toLowerStr (normField r' field) ≠ toLowerStr value) ∧
    (find_record data field value = none ↔
      ∀ r ∈ data, toLowerStr (normField r field) ≠ toLowerStr value) ∧
    find_record [janeRecord] "email_norm" (toStr "jane@example.com") = some janeRecord := by
  rw [find_record_exact_eq data field value hf, hv]
  refine ⟨?_, ?_, by decide⟩
  · intro r hr
    obtain ⟨pre, post, heq, hpre, hpa⟩ := find?_first _ _ _ hr
    refine ⟨by simpa [beq_iff_eq] using hpa, pre, post, heq, ?_⟩
    intro r' hr'
    have := hpre r' hr'
    simpa [beq_iff_eq] using this
  · rw [List.find?_eq_none]
    constructor
    · intro h r hr
      have := h r hr
      simpa [beq_iff_eq] using this
    · intro h r hr
      have := h r hr
      simpa [beq_iff_eq] using this

theorem find_record_exact_ci_witness :
    (("email_norm" : String) = "email_norm" ∨ ("email_norm" : String) = "tg_norm" ∨
      ("email_norm" : String) = "x_norm") ∧
    trimWs (toStr "jane@example.com") = toStr "jane@example.com" ∧
    find_record [janeRecord] "email_norm" (toStr "jane@example.com") = some janeRecord :=
  ⟨Or.inl rfl, by decide,
    (find_record_exact_ci [janeRecord] "email_norm" (toStr "jane@example.com")
      (Or.inl rfl) (by decide)).2.2⟩

/-- Claim C9: against an empty snapshot every `find_record` call returns
`none` (for every field kind, known or not) and the fuzzy ranker returns the
empty list. -/
theorem empty_snapshot_lookup :
    (∀ (field : String) (value : Str), find_record [] field value = none) ∧
    (∀ (q : Str) (cutoff : ℚ) (maxS : Nat) (dedup : List Str),
      validDedup dedup (namesOf []) → fuzzy_name_suggestions q cutoff maxS dedup = []) := by
  constructor
  · intro field value
    simp only [find_record]
    split_ifs <;> simp
  · intro q cutoff maxS dedup hd
    have hnil : dedup = [] := by
      rcases hd with ⟨-, hsub, -⟩
      cases dedup with
      | nil => rfl
      | cons a t => exact absurd (hsub a (by simp)) (by simp [namesOf])
    subst hnil
    simp [fuzzy_name_suggestions, scoredList]

theorem empty_snapshot_lookup_witness :
    validDedup [] (namesOf []) ∧
    find_record [] "raw" (toStr "jdoe") = none ∧
    fuzzy_name_suggestions (toStr "jane") (3/5) 5 [] = [] := by
  have hv : validDedup [] (namesOf []) := ⟨List.nodup_nil, by simp, by simp [namesOf]⟩
  exact ⟨hv, empty_snapshot_lookup.1 "raw" (toStr "jdoe"),
    empty_snapshot_lookup.2 (toStr "jane") (3/5) 5 [] hv⟩

/-! ## Handle normalization (claim C4) -/

/-- The output of `normHandle` is lowercase-fixed. -/
theorem normHandle_lower_fixed (s : Str) : toLowerStr (normHandle s) = normHandle s := by
  apply map_eq_self_of_fixed
  intro c hc
  have h1 : c ∈ dropAts (toLowerStr s) := mem_of_mem_trimBy _ _ c hc
  have h1' : c ∈ (toLowerStr s).dropWhile (fun c => decide (c = '@')) := h1
  have h2 : c ∈ toLowerStr s := List.Sublist.mem h1' (List.dropWhile_sublist _)
  obtain ⟨c', -, rfl⟩ := List.mem_map.1 h2
  exact pyLower_idem c'

/-- Counterexample to claim C4 as stated: normalization
`lower().lstrip("@").strip()` is not idempotent on `" @a"` — the first pass
strips the space and uncovers a fresh leading `@`, which only the second pass
removes. -/
theorem normHandle_not_idem_cex :
    normHandle (toStr " @a") = toStr "@a" ∧
    normHandle (normHandle (toStr " @a")) = toStr "a" ∧
    normHandle (normHandle (toStr " @a")) ≠ normHandle (toStr " @a") :=
  ⟨by decide, by decide, by decide⟩

/-- Claim C4 (amended): the load-time handle normalization is idempotent on
every input whose normalized form does not itself start with `@` (this is
every input in which no leading-`@` run is uncovered by whitespace
stripping). -/
theorem normHandle_idem_of_head (s : Str)
    (h : (normHandle s).head? ≠ some '@') :
    normHandle (normHandle s) = normHandle s := by
  have hlow : toLowerStr (normHandle s) = normHandle s := normHandle_lower_fixed s
  have hdrop : dropAts (normHandle s) = normHandle s := by
    apply dropWhile_eq_self_of_head
    intro c hc
    simp only [decide_eq_false_iff_not]
    intro hceq
    rw [hceq] at hc
    exact h hc
  have htrim : trimWs (normHandle s) = normHandle s :=
    trimBy_idem isWsB (dropAts (toLowerStr s))
  calc normHandle (normHandle s)
      = trimWs (dropAts (toLowerStr (normHandle s))) := rfl
    _ = trimWs (dropAts (normHandle s)) := by rw [hlow]
    _ = trimWs (normHandle s) := by rw [hdrop]
    _ = normHandle s := htrim

theorem normHandle_idem_witness :
    (normHandle (toStr "@Ab")).head? ≠ some '@' ∧
    normHandle (normHandle (toStr "@Ab")) = normHandle (toStr "@Ab") :=
  ⟨by decide, normHandle_idem_of_head (toStr "@Ab") (by decide)⟩

/-! ## Load-time email resolution (claim C8) -/

/-- Claim C8 (amended): at load time the normalized email is the lowercased,
trimmed value of the field `email` when non-empty; otherwise of the first
non-empty alias field in set iteration order (some alias of the fixed six,
since the order is unspecified); otherwise of the **first field whose name
contains `email` and whose value is non-empty**; otherwise the empty string.
Every branch is total — missing fields yield the empty string, never an
error. -/
theorem email_resolution_spec (row : List (Str × Str)) (ord : List Str)
    (hord : validAliasEnum ord) :
    (getS row (toStr "email") ≠ [] →
      emailNormOf row ord = trimWs (toLowerStr (getS row (toStr "email")))) ∧
    (getS row (toStr "email") = [] → (∃ a ∈ sixAliases, getS row a ≠ []) →
      ∃ a ∈ sixAliases, getS row a ≠ [] ∧
        emailNormOf row ord = trimWs (toLowerStr (getS row a))) ∧
    (getS row (toStr "email") = [] → (∀ a ∈ sixAliases, getS row a = []) →
      (∀ pr ∈ row, containsStr (toStr "email") pr.1 = false ∨ pr.2 = []) →
      emailNormOf row ord = []) ∧
    (getS row (toStr "email") = [] → (∀ a ∈ sixAliases, getS row a = []) →
      ∀ pr₀ ∈ row, containsStr (toStr "email") pr₀.1 = true → pr₀.2 ≠ [] →
      ∃ pre p post, row = pre ++ p :: post ∧
        containsStr (toStr "email") p.1 = true ∧ p.2 ≠ [] ∧
        (∀ pr ∈ pre, containsStr (toStr "email") pr.1 = false ∨ pr.2 = []) ∧
        emailNormOf row ord = trimWs (toLowerStr p.2)) := by
  obtain ⟨hnd, hin, hall⟩ := hord
  refine ⟨?_, ?_, ?_, ?_⟩
  · intro he
    simp only [emailNormOf, resolve_email_val]
    rw [if_pos he]
  · intro he ⟨a₀, ha₀six, ha₀ne⟩
    have ha₀ord : a₀ ∈ ord := hall a₀ (by simp [allAliases, ha₀six])
    have hsome : (ord.find? (fun a => !(getS row a == []))).isSome := by
      rw [List.find?_isSome]
      exact ⟨a₀, ha₀ord, by simpa using ha₀ne⟩
    obtain ⟨a, hfind⟩ := Option.isSome_iff_exists.1 hsome
    have hane : getS row a ≠ [] := by simpa using List.find?_some hfind
    have hasix : a ∈ sixAliases := by
      have : a ∈ allAliases := hin a (List.mem_of_find?_eq_some hfind)
      rcases List.mem_cons.1 this with h1 | h1
      · rw [h1] at hane
        exact absurd he hane
      · exact h1
    refine ⟨a, hasix, hane, ?_⟩
    simp only [emailNormOf, resolve_email_val]
    rw [if_neg (by simp [he]), hfind]
  · intro he hsix hno
    have hfind1 : ord.find? (fun a => !(getS row a == [])) = none := by
      rw [List.find?_eq_none]
      intro a ha
      have : a ∈ allAliases := hin a ha
      rcases List.mem_cons.1 this with h1 | h1
      · simp [h1, he]
      · simp [hsix a h1]
    have hfind2 : row.find? (fun pr => containsStr (toStr "email") pr.1 && !(pr.2 == [])) = none := by
      rw [List.find?_eq_none]
      intro pr hpr
      rcases hno pr hpr with h1 | h1 <;> simp [h1]
    simp only [emailNormOf, resolve_email_val]
    rw [if_neg (by simp [he]), hfind1, hfind2]
    rfl
  · intro he hsix pr₀ hpr₀ hpr₀c hpr₀v
    have hfind1 : ord.find? (fun a => !(getS row a == [])) = none := by
      rw [List.find?_eq_none]
      intro a ha
      have : a ∈ allAliases := hin a ha
      rcases List.mem_cons.1 this with h1 | h1
      · simp [h1, he]
      · simp [hsix a h1]
    have hsome : (row.find? (fun pr => containsStr (toStr "email") pr.1 && !(pr.2 == []))).isSome := by
      rw [List.find?_isSome]
      exact ⟨pr₀, hpr₀, by simp [hpr₀c, hpr₀v]⟩
    obtain ⟨p, hfind2⟩ := Option.isSome_iff_exists.1 hsome
    obtain ⟨pre, post, heq, hpre, hpa⟩ := find?_first _ _ _ hfind2
    have hpa' : containsStr (toStr "email") p.1 = true ∧ p.2 ≠ [] := by
      simpa using hpa
    refine ⟨pre, p, post, heq, hpa'.1, hpa'.2, ?_, ?_⟩
    · intro pr hpr
      have := hpre pr hpr
      rcases Bool.and_eq_false_iff.1 this with h1 | h1
      · exact Or.inl h1
      · refine Or.inr ?_
        simpa using h1
    · simp only [emailNormOf, resolve_email_val]
      rw [if_neg (by simp [he]), hfind1, hfind2]

/-- Row of the C8 counterexample: the first `email`-named field is empty, a
later one is not. -/
def cexRow : List (Str × Str) := [(toStr "x_email", []), (toStr "y_email", toStr "B@c.de")]

/-- Counterexample to claim C8 as stated: on `cexRow` the first field whose
name contains `email` has the empty value, so the claimed chain would yield
the empty string, but the loader takes the first **non-empty** such field and
yields `b@c.de`. -/
theorem email_resolution_first_field_cex :
    emailNormOf cexRow allAliases = toStr "b@c.de" ∧
    (cexRow.find? (fun pr => containsStr (toStr "email") pr.1)).map (fun pr => pr.2) =
      some [] ∧
    emailNormOf cexRow allAliases ≠ trimWs (toLowerStr []) :=
  ⟨by decide, by decide, by decide⟩

/-- Row exercising the first branch of `email_resolution_spec`. -/
def demoRow : List (Str × Str) := [(toStr "email", toStr " A@b.co ")]

theorem email_resolution_spec_witness :
    validAliasEnum allAliases ∧ getS demoRow (toStr "email") ≠ [] ∧
    emailNormOf demoRow allAliases = trimWs (toLowerStr (getS demoRow (toStr "email"))) := by
  have hv : validAliasEnum allAliases := ⟨by decide, fun a ha => ha, fun a ha => ha⟩
  exact ⟨hv, by decide, (email_resolution_spec demoRow allAliases hv).1 (by decide)⟩

/-! ## Fuzzy ranking properties (claim C2) -/

theorem scoredList_mem (q : Str) (cutoff : ℚ) (dedup : List Str) (p : Str × ℚ) :
    p ∈ scoredList q cutoff dedup ↔
      p.1 ∈ dedup ∧ p.2 = ratioQ (toLowerStr q) (toLowerStr p.1) ∧ cutoff ≤ p.2 := by
  constructor
  · intro hp
    obtain ⟨n, hn, hf⟩ := List.mem_filterMap.1 hp
    simp only [scoredList] at hf
    by_cases hc : cutoff ≤ ratioQ (toLowerStr q) (toLowerStr n)
    · rw [if_pos hc] at hf
      obtain rfl : (n, ratioQ (toLowerStr q) (toLowerStr n)) = p := by injection hf
      exact ⟨hn, rfl, hc⟩
    · rw [if_neg hc] at hf
      exact absurd hf (by simp)
  · rintro ⟨hn, hr, hc⟩
    refine List.mem_filterMap.2 ⟨p.1, hn, ?_⟩
    simp only []
    rw [if_pos (hr ▸ hc)]
    rw [← hr]

theorem scoredList_length (q : Str) (cutoff : ℚ) (dedup : List Str) :
    (scoredList q cutoff dedup).length =
      dedup.countP (fun n => decide (cutoff ≤ ratioQ (toLowerStr q) (toLowerStr n))) := by
  induction dedup with
  | nil => rfl
  | cons a t ih =>
    simp only [scoredList, List.filterMap_cons, List.countP_cons] at ih ⊢
    by_cases hc : cutoff ≤ ratioQ (toLowerStr q) (toLowerStr a)
    · rw [if_pos hc]
      simp [ih, hc]
    · rw [if_neg hc]
      simp [ih, hc]

theorem scoredList_map_fst (q : Str) (cutoff : ℚ) (dedup : List Str) :
    (scoredList q cutoff dedup).map (fun p => p.1) =
      dedup.filter (fun n => decide (cutoff ≤ ratioQ (toLowerStr q) (toLowerStr n))) := by
  induction dedup with
  | nil => rfl
  | cons a t ih =>
    simp only [scoredList, List.filterMap_cons, List.filter_cons] at ih ⊢
    by_cases hc : cutoff ≤ ratioQ (toLowerStr q) (toLowerStr a)
    · rw [if_pos hc]
      simp [ih, hc]
    · rw [if_neg hc]
      simp [ih, hc]

/-- Inserting with `ratioGE` places an element before every element of equal
key, so filtering one key value commutes with the insertion. -/
theorem filter_orderedInsert (c : ℚ) (a : Str × ℚ) (l : List (Str × ℚ)) :
    (List.orderedInsert ratioGE a l).filter (fun p => decide (p.2 = c)) =
      if a.2 = c then a :: l.filter (fun p => decide (p.2 = c))
      else l.filter (fun p => decide (p.2 = c)) := by
  induction l with
  | nil =>
    simp only [List.orderedInsert, List.filter]
    by_cases hac : a.2 = c <;> simp [hac]
  | cons b t ih =>
    by_cases hr : ratioGE a b
    · rw [List.orderedInsert, if_pos hr]
      by_cases hac : a.2 = c <;> simp [List.filter_cons, hac]
    · rw [List.orderedInsert, if_neg hr]
      have hbla : a.2 < b.2 := lt_of_not_le hr
      by_cases hac : a.2 = c
      · have hbc : ¬(b.2 = c) := by
          intro hbc
          rw [hac] at hbla
          rw [hbc] at hbla
          exact lt_irrefl c hbla
        simp [List.filter_cons, hbc, ih, hac]
      · by_cases hbc : b.2 = c <;> simp [List.filter_cons, hbc, ih, hac]

/-- Python's `sort` is stable: sorting with `ratioGE` preserves the relative
order (and multiset) of the entries of any fixed ratio value. -/
theorem filter_insertionSort (c : ℚ) (l : List (Str × ℚ)) :
    (List.insertionSort ratioGE l).filter (fun p => decide (p.2 = c)) =
      l.filter (fun p => decide (p.2 = c)) := by
  induction l with
  | nil => rfl
  | cons a t ih =>
    rw [List.insertionSort, filter_orderedInsert]
    by_cases hac : a.2 = c <;> simp [List.filter_cons, hac, ih]

/-- Claim C2 (amended): the fuzzy suggestion list consists of the distinct
names (as enumerated by the iteration order of the Python set `set(names)`,
which is implementation-defined — **not** the snapshot iteration order) whose
gestalt ratio to the lowercased query reaches the cutoff, sorted by
descending ratio, with ties kept in the set's enumeration order, truncated to
`maxResults`; for a fixed enumeration the function is pure, hence repeated
calls on the same snapshot return identical results. -/
theorem fuzzy_suggestions_spec (data : List Record) (q : Str) (cutoff : ℚ)
    (maxS : Nat) (dedup : List Str) (hd : validDedup dedup (namesOf data)) :
    (∀ p ∈ fuzzy_name_suggestions q cutoff maxS dedup,
      p.1 ∈ namesOf data ∧ p.2 = ratioQ (toLowerStr q) (toLowerStr p.1) ∧ cutoff ≤ p.2) ∧
    (fuzzy_name_suggestions q cutoff maxS dedup).Pairwise ratioGE ∧
    (fuzzy_name_suggestions q cutoff maxS dedup).length =
      min maxS (dedup.countP (fun n => decide (cutoff ≤ ratioQ (toLowerStr q) (toLowerStr n)))) ∧
    (∀ c : ℚ, (((fuzzy_name_suggestions q cutoff maxS dedup).filter
        (fun p => decide (p.2 = c))).map (fun p => p.1)).Sublist dedup) ∧
    (∀ n ∈ dedup, cutoff ≤ ratioQ (toLowerStr q) (toLowerStr n) →
      dedup.countP (fun n => decide (cutoff ≤ ratioQ (toLowerStr q) (toLowerStr n))) ≤ maxS →
      (n, ratioQ (toLowerStr q) (toLowerStr n)) ∈ fuzzy_name_suggestions q cutoff maxS dedup) := by
  refine ⟨?_, ?_, ?_, ?_, ?_⟩
  · intro p hp
    have h1 : p ∈ List.insertionSort ratioGE (scoredList q cutoff dedup) :=
      List.Sublist.mem hp (List.take_sublist _ _)
    have h2 : p ∈ scoredList q cutoff dedup :=
      (List.perm_insertionSort ratioGE _).mem_iff.1 h1
    obtain ⟨hmem, hr, hc⟩ := (scoredList_mem q cutoff dedup p).1 h2
    exact ⟨hd.2.1 p.1 hmem, hr, hc⟩
  · exact List.Pairwise.sublist (List.take_sublist _ _)
      (List.sorted_insertionSort ratioGE _)
  · rw [fuzzy_name_suggestions, List.length_take,
      (List.perm_insertionSort ratioGE _).length_eq, scoredList_length]
  · intro c
    have h1 : ((fuzzy_name_suggestions q cutoff maxS dedup).filter
        (fun p => decide (p.2 = c))).Sublist
        ((List.insertionSort ratioGE (scoredList q cutoff dedup)).filter
          (fun p => decide (p.2 = c))) :=
      List.Sublist.filter _ (List.take_sublist _ _)
    rw [filter_insertionSort] at h1
    have h2 := List.Sublist.map (fun p : Str × ℚ => p.1) h1
    have h3 : ((scoredList q cutoff dedup).filter (fun p => decide (p.2 = c))).Sublist
        (scoredList q cutoff dedup) := List.filter_sublist _
    have h4 := List.Sublist.map (fun p : Str × ℚ => p.1) h3
    rw [scoredList_map_fst] at h4
    exact h2.trans (h4.trans (List.filter_sublist _))
  · intro n hn hc hlen
    have hmem : (n, ratioQ (toLowerStr q) (toLowerStr n)) ∈ scoredList q cutoff dedup :=
      (scoredList_mem q cutoff dedup _).2 ⟨hn, rfl, hc⟩
    have hlen2 : (List.insertionSort ratioGE (scoredList q cutoff dedup)).length ≤ maxS := by
      rw [(List.perm_insertionSort ratioGE _).length_eq, scoredList_length]
      exact hlen
    rw [fuzzy_name_suggestions, List.take_of_length_le hlen2]
    exact (List.perm_insertionSort ratioGE _).mem_iff.2 hmem

/-- Snapshot and set-enumeration for the C2 counterexample: the names `abx`
and `xbc` both have ratio `2/3` against the query `abc`, and the set
enumeration presents them in the order opposite to the snapshot. -/
def cexData : List Record :=
  [{ email_norm := [], tg_norm := [], x_norm := [], full_name_norm := toStr "abx" },
   { email_norm := [], tg_norm := [], x_norm := [], full_name_norm := toStr "xbc" }]

def cexDedup : List Str := [toStr "xbc", toStr "abx"]

theorem ratio_abc_abx : ratioQ (toLowerStr (toStr "abc")) (toLowerStr (toStr "abx")) = 2/3 := by
  have h1 : toLowerStr (toStr "abc") = toStr "abc" := by decide
  have h2 : toLowerStr (toStr "abx") = toStr "abx" := by decide
  have hm : matchTotal (toStr "abc") (toStr "abx") = 2 := by decide
  have hl : (toStr "abc").length = 3 := by decide
  have hl2 : (toStr "abx").length = 3 := by decide
  rw [h1, h2, ratioQ, if_neg (by decide), hm, hl, hl2]
  norm_num

theorem ratio_abc_xbc : ratioQ (toLowerStr (toStr "abc")) (toLowerStr (toStr "xbc")) = 2/3 := by
  have h1 : toLowerStr (toStr "abc") = toStr "abc" := by decide
  have h2 : toLowerStr (toStr "xbc") = toStr "xbc" := by decide
  have hm : matchTotal (toStr "abc") (toStr "xbc") = 2 := by decide
  have hl : (toStr "abc").length = 3 := by decide
  have hl2 : (toStr "xbc").length = 3 := by decide
  rw [h1, h2, ratioQ, if_neg (by decide), hm, hl, hl2]
  norm_num

/-- Counterexample to claim C2 as stated: under a valid enumeration of the
distinct-name set whose order differs from the snapshot order, the two
ratio-tied suggestions come out in set order `xbc, abx`, not in the
snapshot's original iteration order `abx, xbc`. -/
theorem fuzzy_tie_order_cex :
    validDedup cexDedup (namesOf cexData) ∧
    fuzzy_name_suggestions (toStr "abc") (3/5) 5 cexDedup =
      [(toStr "xbc", 2/3), (toStr "abx", 2/3)] ∧
    fuzzy_name_suggestions (toStr "abc") (3/5) 5 cexDedup ≠
      [(toStr "abx", 2/3), (toStr "xbc", 2/3)] := by
  have hsc : scoredList (toStr "abc") (3/5) cexDedup =
      [(toStr "xbc", 2/3), (toStr "abx", 2/3)] := by
    simp only [cexDedup, scoredList, List.filterMap_cons, List.filterMap_nil,
      ratio_abc_abx, ratio_abc_xbc]
    rw [if_pos (by norm_num), if_pos (by norm_num)]
  have hst : List.insertionSort ratioGE [(toStr "xbc", (2:ℚ)/3), (toStr "abx", (2:ℚ)/3)] =
      [(toStr "xbc", (2:ℚ)/3), (toStr "abx", (2:ℚ)/3)] := by
    simp only [List.insertionSort, List.orderedInsert]
    rw [if_pos (by simp [ratioGE])]
  have hfz : fuzzy_name_suggestions (toStr "abc") (3/5) 5 cexDedup =
      [(toStr "xbc", (2:ℚ)/3), (toStr "abx", (2:ℚ)/3)] := by
    rw [fuzzy_name_suggestions, hsc, hst]
    rfl
  refine ⟨by unfold validDedup; decide, hfz, ?_⟩
  rw [hfz]
  intro heq
  have hh : toStr "xbc" = toStr "abx" := congrArg (fun l => (l.headI.1 : Str)) heq
  exact absurd hh (by decide)

/-- A one-name snapshot and enumeration for the C2 witness. -/
def demoData : List Record :=
  [{ email_norm := [], tg_norm := [], x_norm := [], full_name_norm := toStr "abx" }]

def demoDedup : List Str := [toStr "abx"]

theorem fuzzy_suggestions_spec_witness :
    validDedup demoDedup (namesOf demoData) ∧
    (toStr "abx", ratioQ (toLowerStr (toStr "abc")) (toLowerStr (toStr "abx"))) ∈
      fuzzy_name_suggestions (toStr "abc") (3/5) 5 demoDedup := by
  have hv : validDedup demoDedup (namesOf demoData) := by unfold validDedup; decide
  refine ⟨hv, ?_⟩
  refine (fuzzy_suggestions_spec demoData (toStr "abc") (3/5) 5 demoDedup hv).2.2.2.2
    (toStr "abx") (by decide) ?_ ?_
  · rw [ratio_abc_abx]
    norm_num
  · exact le_trans (List.countP_le_length _) (by decide)

/-! ## Classifier properties (claim C5) -/

/-- The declarative shape of the email regex's capture group:
`local+ @ dom+ . alpha{2,}`. -/
def isEmailShape (s : Str) : Prop :=
  ∃ loc dom tld : Str, s = loc ++ '@' :: (dom ++ '.' :: tld) ∧
    loc ≠ [] ∧ (∀ c ∈ loc, isLocalB c = true) ∧
    dom ≠ [] ∧ (∀ c ∈ dom, isDomB c = true) ∧
    2 ≤ tld.length ∧ (∀ c ∈ tld, isAlphaB c = true)

/-- Characters that can occur in an email match are neither whitespace nor in
the `parse_query` strip set. -/
theorem emailChar_not_ws_strip (c : Char)
    (h : isLocalB c = true ∨ c = '@' ∨ isDomB c = true ∨ c = '.' ∨ isAlphaB c = true) :
    isWsB c = false ∧ isStripSetB c = false := by
  rcases h with h | h | h | h | h
  · simp only [isLocalB, isAlphaB, isUpperB, isLowerB, isDigitB, Bool.or_eq_true,
      Bool.and_eq_true, decide_eq_true_eq] at h
    simp only [isWsB, isStripSetB, Bool.or_eq_false_iff, Bool.and_eq_false_iff,
      decide_eq_false_iff_not]
    omega
  · rw [h]
    exact ⟨by decide, by decide⟩
  · simp only [isDomB, isAlphaB, isUpperB, isLowerB, isDigitB, Bool.or_eq_true,
      Bool.and_eq_true, decide_eq_true_eq] at h
    simp only [isWsB, isStripSetB, Bool.or_eq_false_iff, Bool.and_eq_false_iff,
      decide_eq_false_iff_not]
    omega
  · rw [h]
    exact ⟨by decide, by decide⟩
  · simp only [isAlphaB, isUpperB, isLowerB, Bool.or_eq_true,
      Bool.and_eq_true, decide_eq_true_eq] at h
    simp only [isWsB, isStripSetB, Bool.or_eq_false_iff, Bool.and_eq_false_iff,
      decide_eq_false_iff_not]
    omega

theorem shape_ne_nil (s : Str) (h : isEmailShape s) : s ≠ [] := by
  obtain ⟨loc, dom, tld, rfl, hlocne, -⟩ := h
  cases loc with
  | nil => exact absurd rfl hlocne
  | cons a l => simp

theorem shape_chars (s : Str) (h : isEmailShape s) :
    ∀ c ∈ s, isWsB c = false ∧ isStripSetB c = false := by
  obtain ⟨loc, dom, tld, rfl, -, hloc, -, hdom, -, htld⟩ := h
  intro c hc
  apply emailChar_not_ws_strip
  simp only [List.mem_append, List.mem_cons] at hc
  rcases hc with h | h | h | h | h
  · exact Or.inl (hloc c h)
  · exact Or.inr (Or.inl h)
  · exact Or.inr (Or.inr (Or.inl (hdom c h)))
  · exact Or.inr (Or.inr (Or.inr (Or.inl h)))
  · exact Or.inr (Or.inr (Or.inr (Or.inr (htld c h))))

/-- An infix none of whose characters satisfy `p` survives `dropWhile p`. -/
theorem infix_dropWhile_of_not (p : Char → Bool) (e l : Str)
    (he : ∀ c ∈ e, p c = false) (hne : e ≠ []) (h : e <:+: l) :
    e <:+: l.dropWhile p := by
  obtain ⟨u, v, rfl⟩ := h
  induction u with
  | nil =>
    rcases e with _ | ⟨c, e'⟩
    · exact absurd rfl hne
    · rw [List.nil_append, List.cons_append, List.dropWhile_cons,
        if_neg (by simp [he c (by simp)])]
      exact ⟨[], v, by simp⟩
  | cons a u' ih =>
    simp only [List.cons_append]
    rw [List.dropWhile_cons]
    by_cases ha : p a = true
    · rw [if_pos ha]
      exact ih
    · rw [if_neg ha]
      exact ⟨a :: u', v, by simp⟩

/-- An infix none of whose characters satisfy `p` survives `trimBy p`. -/
theorem infix_trimBy_of_not (p : Char → Bool) (e l : Str)
    (he : ∀ c ∈ e, p c = false) (hne : e ≠ []) (h : e <:+: l) :
    e <:+: trimBy p l := by
  have h1 : e <:+: l.dropWhile p := infix_dropWhile_of_not p e l he hne h
  have h2 : e.reverse <:+: (l.dropWhile p).reverse := List.reverse_infix.2 h1
  have h3 : e.reverse <:+: ((l.dropWhile p).reverse).dropWhile p :=
    infix_dropWhile_of_not p e.reverse _ (fun c hc => he c (List.mem_reverse.1 hc))
      (by simpa using hne) h2
  have h4 : (trimBy p l).reverse = ((l.dropWhile p).reverse).dropWhile p := by
    rw [trimBy, List.reverse_reverse]
  rw [← h4] at h3
  exact List.reverse_infix.1 h3

theorem getD_append_len (xs : Str) (c : Char) (ys : Str) (d : Char) :
    (xs ++ c :: ys).getD xs.length d = c := by
  induction xs with
  | nil => rfl
  | cons a t ih => simpa using ih

theorem drop_append_len_succ (xs : Str) (c : Char) (ys : Str) :
    (xs ++ c :: ys).drop (xs.length + 1) = ys := by
  rw [show xs ++ c :: ys = (xs ++ [c]) ++ ys by simp,
    show xs.length + 1 = (xs ++ [c]).length by simp, List.drop_left]

theorem take_append_getD_drop (l : Str) (k : Nat) (d : Char) (h : k < l.length) :
    l.take k ++ l.getD k d :: l.drop (k + 1) = l := by
  induction l generalizing k with
  | nil => simp at h
  | cons a t ih =>
    cases k with
    | zero => simp
    | succ k' =>
      simp only [List.take_succ_cons, List.getD_cons_succ, List.drop_succ_cons,
        List.cons_append, List.cons.injEq, true_and]
      exact ih k' (by simpa using h)

theorem alphaB_isDomB (c : Char) (h : isAlphaB c = true) : isDomB c = true := by
  simp [isDomB, h]

/-- Completeness of one match attempt: at the exact start of an email-shaped
substring, `matchCore` succeeds (whatever follows). -/
theorem matchCore_isSome_of_shape (e v : Str) (h : isEmailShape e) :
    (matchCore (e ++ v)).isSome := by
  obtain ⟨loc, dom, tld, rfl, hlocne, hloc, hdomne, hdom, htldlen, htld⟩ := h
  have hshape : (loc ++ '@' :: (dom ++ '.' :: tld)) ++ v =
      loc ++ '@' :: (dom ++ '.' :: (tld ++ v)) := by
    simp [List.append_assoc]
  rw [hshape]
  have htake : (loc ++ '@' :: (dom ++ '.' :: (tld ++ v))).takeWhile isLocalB = loc := by
    rw [takeWhile_append_of_all _ _ _ hloc, List.takeWhile_cons]
    rw [show isLocalB '@' = false by decide]
    simp
  have hdrop : (loc ++ '@' :: (dom ++ '.' :: (tld ++ v))).dropWhile isLocalB
      = '@' :: (dom ++ '.' :: (tld ++ v)) := by
    rw [dropWhile_append_of_all _ _ _ hloc, List.dropWhile_cons]
    rw [show isLocalB '@' = false by decide]
    simp
  have htld_dom : ∀ c ∈ tld, isDomB c = true := fun c hc => alphaB_isDomB c (htld c hc)
  have hdomrun : (dom ++ '.' :: (tld ++ v)).takeWhile isDomB
      = dom ++ '.' :: (tld ++ v.takeWhile isDomB) := by
    rw [takeWhile_append_of_all _ _ _ hdom, List.takeWhile_cons]
    rw [show isDomB '.' = true by decide]
    rw [takeWhile_append_of_all _ _ _ htld_dom]
    simp
  have hkmem : dom.length ∈ (List.range (dom ++ '.' :: (tld ++ v.takeWhile isDomB)).length).reverse := by
    rw [List.mem_reverse, List.mem_range]
    simp only [List.length_append, List.length_cons]
    omega
  have hk1 : 1 ≤ dom.length := by
    cases dom with
    | nil => exact absurd rfl hdomne
    | cons a t => simp
  have hgetd : (dom ++ '.' :: (tld ++ v.takeWhile isDomB)).getD dom.length ' ' = '.' :=
    getD_append_len dom '.' _ ' '
  have hdrop2 : (dom ++ '.' :: (tld ++ v.takeWhile isDomB)).drop (dom.length + 1)
      = tld ++ v.takeWhile isDomB :=
    drop_append_len_succ dom '.' _
  have hrun : 2 ≤ (((dom ++ '.' :: (tld ++ v.takeWhile isDomB)).drop (dom.length + 1)).takeWhile
      isAlphaB).length := by
    rw [hdrop2, takeWhile_append_of_all _ _ _ htld]
    simp only [List.length_append]
    omega
  have hfs : (findSplit (dom ++ '.' :: (tld ++ v.takeWhile isDomB))).isSome := by
    rw [findSplit, List.find?_isSome]
    refine ⟨dom.length, hkmem, ?_⟩
    simp only [Bool.and_eq_true, decide_eq_true_eq]
    exact ⟨⟨hk1, hgetd⟩, hrun⟩
  obtain ⟨k, hk⟩ := Option.isSome_iff_exists.1 hfs
  simp only [matchCore, htake, hdrop]
  rw [if_neg hlocne, if_pos (by simp)]
  simp only [List.tail_cons, hdomrun]
  rw [hk]
  simp

/-- Soundness of one match attempt: a successful `matchCore` returns an
email-shaped prefix of its input. -/
theorem matchCore_sound (l g : Str) (h : matchCore l = some g) :
    isEmailShape g ∧ g <+: l := by
  simp only [matchCore] at h
  by_cases h0 : l.takeWhile isLocalB = []
  · rw [if_pos h0] at h
    exact absurd h (by simp)
  · rw [if_neg h0] at h
    by_cases h1 : (l.dropWhile isLocalB).head? = some '@'
    · rw [if_pos h1] at h
      cases hfs : findSplit ((l.dropWhile isLocalB).tail.takeWhile isDomB) with
      | none =>
        rw [hfs] at h
        exact absurd h (by simp)
      | some k =>
        rw [hfs] at h
        simp only [Option.some.injEq] at h
        subst h
        have hpred := List.find?_some hfs
        simp only [Bool.and_eq_true, decide_eq_true_eq] at hpred
        obtain ⟨⟨hk1, hgetd⟩, hrunlen⟩ := hpred
        have hklt : k < ((l.dropWhile isLocalB).tail.takeWhile isDomB).length := by
          have hmem := List.mem_of_find?_eq_some hfs
          rw [List.mem_reverse, List.mem_range] at hmem
          exact hmem
        constructor
        · refine ⟨l.takeWhile isLocalB,
            ((l.dropWhile isLocalB).tail.takeWhile isDomB).take k,
            ((((l.dropWhile isLocalB).tail.takeWhile isDomB)).drop (k + 1)).takeWhile isAlphaB,
            rfl, h0, mem_takeWhile_sat isLocalB l, ?_, ?_, hrunlen,
            mem_takeWhile_sat isAlphaB _⟩
          · have hlen : (((l.dropWhile isLocalB).tail.takeWhile isDomB).take k).length = k := by
              rw [List.length_take]
              omega
            intro hnil
            rw [hnil] at hlen
            simp only [List.length_nil] at hlen
            omega
          · intro c hc
            exact mem_takeWhile_sat isDomB (l.dropWhile isLocalB).tail c
              (List.take_subset k _ hc)
        · have hl : l.takeWhile isLocalB ++ l.dropWhile isLocalB = l :=
            List.takeWhile_append_dropWhile isLocalB l
          have hr2 : l.dropWhile isLocalB = '@' :: (l.dropWhile isLocalB).tail := by
            cases hrr : l.dropWhile isLocalB with
            | nil =>
              rw [hrr] at h1
              simp at h1
            | cons c t =>
              rw [hrr] at h1
              simp only [List.head?_cons, Option.some.injEq] at h1
              rw [h1]
              simp
          have hrt : (l.dropWhile isLocalB).tail.takeWhile isDomB ++
              (l.dropWhile isLocalB).tail.dropWhile isDomB = (l.dropWhile isLocalB).tail :=
            List.takeWhile_append_dropWhile isDomB _
          have hsplit : ((l.dropWhile isLocalB).tail.takeWhile isDomB).take k ++
              '.' :: ((l.dropWhile isLocalB).tail.takeWhile isDomB).drop (k + 1) =
              (l.dropWhile isLocalB).tail.takeWhile isDomB := by
            have hx := take_append_getD_drop ((l.dropWhile isLocalB).tail.takeWhile isDomB) k ' ' hklt
            rw [hgetd] at hx
            exact hx
          have hrun : ((((l.dropWhile isLocalB).tail.takeWhile isDomB)).drop (k + 1)).takeWhile
                isAlphaB ++
              ((((l.dropWhile isLocalB).tail.takeWhile isDomB)).drop (k + 1)).dropWhile isAlphaB =
              (((l.dropWhile isLocalB).tail.takeWhile isDomB)).drop (k + 1) :=
            List.takeWhile_append_dropWhile isAlphaB _
          refine ⟨((((l.dropWhile isLocalB).tail.takeWhile isDomB)).drop (k + 1)).dropWhile
              isAlphaB ++ (l.dropWhile isLocalB).tail.dropWhile isDomB, ?_⟩
          conv_rhs => rw [← hl, hr2, ← hrt, ← hsplit, ← hrun]
          simp only [List.append_assoc, List.cons_append]
    · rw [if_neg h1] at h
      exact absurd h (by simp)

theorem prefix_suffix_infix (g m l : Str) (h1 : g <+: m) (h2 : m <:+ l) : g <:+: l := by
  obtain ⟨w, hw⟩ := h1
  obtain ⟨u, hu⟩ := h2
  exact ⟨u, w, by rw [← hu, ← hw]; simp [List.append_assoc]⟩

theorem matchAt_isSome_of_core (l : Str) (h : (matchCore l).isSome) :
    (matchAt l).isSome := by
  rw [matchAt]
  by_cases hm : ((l.take 7).map pyLower == toStr "mailto:") = true
  · rw [if_pos hm]
    cases hc : matchCore (l.drop 7) with
    | some g => simp
    | none => simpa using h
  · rw [if_neg hm]
    exact h

theorem matchAt_sound (l g : Str) (h : matchAt l = some g) :
    isEmailShape g ∧ g <:+: l := by
  rw [matchAt] at h
  by_cases hm : ((l.take 7).map pyLower == toStr "mailto:") = true
  · rw [if_pos hm] at h
    cases hc : matchCore (l.drop 7) with
    | some g' =>
      rw [hc] at h
      simp only [Option.some.injEq] at h
      subst h
      obtain ⟨hs, hp⟩ := matchCore_sound _ _ hc
      exact ⟨hs, prefix_suffix_infix _ _ _ hp (List.drop_suffix 7 l)⟩
    | none =>
      rw [hc] at h
      obtain ⟨hs, hp⟩ := matchCore_sound _ _ h
      exact ⟨hs, prefix_suffix_infix _ _ _ hp (List.suffix_refl l)⟩
  · rw [if_neg hm] at h
    obtain ⟨hs, hp⟩ := matchCore_sound _ _ h
    exact ⟨hs, prefix_suffix_infix _ _ _ hp (List.suffix_refl l)⟩

theorem emailSearch_sound (s : Str) : ∀ g, emailSearch s = some g →
    isEmailShape g ∧ g <:+: s := by
  induction s with
  | nil =>
    intro g h
    simp [emailSearch] at h
  | cons a t ih =>
    intro g h
    rw [emailSearch] at h
    cases hm : matchAt (a :: t) with
    | some g' =>
      rw [hm] at h
      simp only [Option.some.injEq] at h
      subst h
      exact matchAt_sound _ _ hm
    | none =>
      rw [hm] at h
      obtain ⟨hs, hinf⟩ := ih g h
      obtain ⟨u, v, huv⟩ := hinf
      exact ⟨hs, a :: u, v, by rw [← huv]; simp⟩

theorem emailSearch_isSome_of_suffix (s t : Str) (hs : t <:+ s)
    (h : (matchAt t).isSome) : (emailSearch s).isSome := by
  induction s with
  | nil =>
    have ht : t = [] := List.suffix_nil.1 hs
    rw [ht] at h
    exact absurd h (by decide)
  | cons a s' ih =>
    rw [emailSearch]
    cases hm : matchAt (a :: s') with
    | some g => simp
    | none =>
      simp only []
      obtain ⟨u, hu⟩ := hs
      cases u with
      | nil =>
        rw [List.nil_append] at hu
        rw [hu] at h
        rw [hm] at h
        exact absurd h (by simp)
      | cons b u' =>
        have hbu : u' ++ t = s' := by
          rw [List.cons_append] at hu
          injection hu
        exact ih ⟨u', hbu⟩

/-- Claim C5: whenever the input contains an email-shaped substring
(`local+ @ dom+ . alpha{2,}`, the pattern of the source's first rule, with
`mailto:` handled as an optional prefix), `parse_query` classifies the input
by its first rule: it returns the field `email_norm` together with the
lowercased matched substring — an email-shaped substring of the cleaned
input — regardless of whether any later rule would also match. -/
theorem parse_query_email_priority (t e : Str) (hinf : e <:+: t)
    (hshape : isEmailShape e) :
    ∃ g, parse_query t = (some "email_norm", some (toLowerStr g)) ∧
      isEmailShape g ∧ g <:+: cleanInput t := by
  have hchars := shape_chars e hshape
  have hne : e ≠ [] := shape_ne_nil e hshape
  have h1 : e <:+: trimWs t :=
    infix_trimBy_of_not isWsB e t (fun c hc => (hchars c hc).1) hne hinf
  have h2 : e <:+: cleanInput t :=
    infix_trimBy_of_not isStripSetB e (trimWs t) (fun c hc => (hchars c hc).2) hne h1
  obtain ⟨u, v, huv⟩ := h2
  have hsuf : (e ++ v) <:+ cleanInput t := ⟨u, by rw [← huv]; simp [List.append_assoc]⟩
  have hcore : (matchCore (e ++ v)).isSome := matchCore_isSome_of_shape e v hshape
  have hat : (matchAt (e ++ v)).isSome := matchAt_isSome_of_core _ hcore
  have hsearch : (emailSearch (cleanInput t)).isSome :=
    emailSearch_isSome_of_suffix _ _ hsuf hat
  obtain ⟨g, hg⟩ := Option.isSome_iff_exists.1 hsearch
  obtain ⟨hgshape, hginf⟩ := emailSearch_sound _ g hg
  refine ⟨g, ?_, hgshape, hginf⟩
  simp only [parse_query, hg]

theorem parse_query_email_priority_witness :
    (toStr "A@b.co" <:+: toStr "see mailto:A@b.co now") ∧
    isEmailShape (toStr "A@b.co") ∧
    ∃ g, parse_query (toStr "see mailto:A@b.co now") =
        (some "email_norm", some (toLowerStr g)) ∧
      isEmailShape g ∧ g <:+: cleanInput (toStr "see mailto:A@b.co now") := by
  have hinf : toStr "A@b.co" <:+: toStr "see mailto:A@b.co now" :=
    ⟨toStr "see mailto:", toStr " now", by decide⟩
  have hshape : isEmailShape (toStr "A@b.co") :=
    ⟨toStr "A", toStr "b", toStr "co", by decide, by decide, by decide, by decide,
      by decide, by decide, by decide⟩
  exact ⟨hinf, hshape, parse_query_email_priority _ _ hinf hshape⟩

end LookupBot
